import Mathlib

/- Verification development for the Donor Identity Resolution Engine
   (src/main.py): paginated retrieval, name-variant expansion,
   deduplication, similarity scoring and continuity clustering.

   Modelling conventions:
   - Python strings are Lean `String`s; `str.lower`/`str.upper` are modelled
     per character over ASCII (`Char.toLower`/`Char.toUpper`), matching the
     record data the service manipulates.
   - Missing or null record fields are modelled as the empty string, which is
     exactly how the code treats them (`r.get(field, "")` feeding functions
     that only test truthiness).
   - Python floats are modelled as exact rationals.
   - `difflib.SequenceMatcher(None, a, b).ratio()` is modelled by the
     Ratcliff-Obershelp computation it implements: repeatedly take the
     longest matching block (earliest in `a`, then in `b`, on ties) and
     recurse on both sides; the score is twice the matched total divided by
     the sum of the lengths.  The autojunk heuristic only affects inputs of
     200 characters or more and is not modelled. -/

/-- One ledger entry as retrieved from the upstream source.  The two derived
fields the clusterer attaches (`match_confidence`, `likely_same_person`) are
kept out of the record and recomputed where needed, so records stay
immutable values. -/
structure ContributionRecord where
  committee_id : String
  transaction_id : String
  contribution_receipt_date : String
  contributor_city : String
  contributor_state : String
  contributor_employer : String
  contributor_occupation : String
  contribution_receipt_amount : ℚ
deriving DecidableEq

/-- Length of the longest common prefix of two character lists. -/
def commonPrefixLen : List Char → List Char → Nat
  | x :: xs, y :: ys => if x = y then commonPrefixLen xs ys + 1 else 0
  | _, _ => 0

/-- Length of the matching block of `a` and `b` that starts at positions
`i` and `j`. -/
def blockLen (a b : List Char) (i j : Nat) : Nat :=
  commonPrefixLen (a.drop i) (b.drop j)

/-- All candidate start positions for a matching block, in the order the
reference implementation scans them. -/
def indexPairs (a b : List Char) : List (Nat × Nat) :=
  (List.range (a.length + 1)).flatMap fun i =>
    (List.range (b.length + 1)).map fun j => (i, j)

/-- Start positions of the longest matching block of `a` and `b`
(smallest start in `a`, then in `b`, among blocks of maximal length),
as difflib's find_longest_match computes for junk-free inputs. -/
def findLongestMatch (a b : List Char) : Nat × Nat :=
  (indexPairs a b).foldl
    (fun best p => if blockLen a b p.1 p.2 > blockLen a b best.1 best.2 then p else best)
    (0, 0)

/-- Total size of all matching blocks of `a` and `b`: the longest matching
block plus, recursively, the matched totals to its left and to its right.
This is the sum of block sizes difflib's get_matching_blocks produces. -/
def matchedSize (a b : List Char) : Nat :=
  if h : blockLen a b (findLongestMatch a b).1 (findLongestMatch a b).2 = 0 then 0
  else
    matchedSize (a.take (findLongestMatch a b).1) (b.take (findLongestMatch a b).2)
      + blockLen a b (findLongestMatch a b).1 (findLongestMatch a b).2
      + matchedSize
          (a.drop ((findLongestMatch a b).1
            + blockLen a b (findLongestMatch a b).1 (findLongestMatch a b).2))
          (b.drop ((findLongestMatch a b).2
            + blockLen a b (findLongestMatch a b).1 (findLongestMatch a b).2))
termination_by a.length
decreasing_by
  · have hk := h
    unfold blockLen at hk
    have hne : a.drop (findLongestMatch a b).1 ≠ [] := by
      intro hcon
      rw [hcon] at hk
      cases hdrop : (b.drop (findLongestMatch a b).2) <;> simp [commonPrefixLen, hdrop] at hk
    have hlt : (findLongestMatch a b).1 < a.length := by
      by_contra hge
      exact hne (List.drop_eq_nil_of_le (Nat.le_of_not_lt hge))
    rw [List.length_take]
    omega
  · have hk := h
    unfold blockLen at hk
    have hne : a.drop (findLongestMatch a b).1 ≠ [] := by
      intro hcon
      rw [hcon] at hk
      cases hdrop : (b.drop (findLongestMatch a b).2) <;> simp [commonPrefixLen, hdrop] at hk
    have hlt : (findLongestMatch a b).1 < a.length := by
      by_contra hge
      exact hne (List.drop_eq_nil_of_le (Nat.le_of_not_lt hge))
    have hk1 : 1 ≤ blockLen a b (findLongestMatch a b).1 (findLongestMatch a b).2 :=
      Nat.one_le_iff_ne_zero.mpr h
    simp only [List.length_drop]
    omega

/-- The SequenceMatcher score: twice the matched total over the total length
(1 when both inputs are empty, as in difflib's calculate_ratio). -/
def matcherScore (a b : List Char) : ℚ :=
  if a.length + b.length = 0 then 1
  else 2 * (matchedSize a b : ℚ) / ((a.length : ℚ) + (b.length : ℚ))

/-- ASCII model of str.lower. -/
def pyLower (s : String) : String :=
  ⟨s.data.map Char.toLower⟩

/-- ASCII model of str.upper. -/
def pyUpper (s : String) : String :=
  ⟨s.data.map Char.toUpper⟩

/-- Fuzzy similarity ratio between two strings (src/main.py similarity):
0 when either input is empty, otherwise the SequenceMatcher score of the
lower-cased inputs. -/
def similarity (a b : String) : ℚ :=
  if a = "" ∨ b = "" then 0
  else matcherScore (pyLower a).data (pyLower b).data

/-- Python truthiness of an optional string: absent and empty are falsy. -/
def truthyS : Option String → Bool
  | none => false
  | some s => s != ""

/-- Confidence score that a record matches the intended donor
(src/main.py match_confidence): accumulate weight-times-similarity and the
weight itself for each supplied target attribute (city 0.4, employer 0.3,
occupation 0.3), then divide; 0 when no attribute is supplied. -/
def match_confidence (record : ContributionRecord)
    (target_city target_employer target_occupation : Option String) : ℚ :=
  let acc0 : ℚ × ℚ := (0, 0)
  let acc1 :=
    if truthyS target_city then
      (acc0.1 + 2/5 * similarity record.contributor_city (target_city.getD ("")), acc0.2 + 2/5)
    else acc0
  let acc2 :=
    if truthyS target_employer then
      (acc1.1 + 3/10 * similarity record.contributor_employer (target_employer.getD ("")),
        acc1.2 + 3/10)
    else acc1
  let acc3 :=
    if truthyS target_occupation then
      (acc2.1 + 3/10 * similarity record.contributor_occupation (target_occupation.getD ("")),
        acc2.2 + 3/10)
    else acc2
  if acc3.2 > 0 then acc3.1 / acc3.2 else 0

/-- The (weight, similarity) pairs of the target attributes actually
supplied, in the fixed city/employer/occupation order. -/
def suppliedAttrs (record : ContributionRecord)
    (target_city target_employer target_occupation : Option String) : List (ℚ × ℚ) :=
  (if truthyS target_city then
    [((2 : ℚ)/5, similarity record.contributor_city (target_city.getD ("")))] else [])
  ++ (if truthyS target_employer then
    [((3 : ℚ)/10, similarity record.contributor_employer (target_employer.getD ("")))] else [])
  ++ (if truthyS target_occupation then
    [((3 : ℚ)/10, similarity record.contributor_occupation (target_occupation.getD ("")))] else [])

/-- Modelled from the spec: profile confidence as the weighted average of the
similarities over the target attributes actually supplied, with the weights
renormalized over those attributes, and 0 when none is supplied.  Stated
independently of match_confidence so the two can be compared. -/
def confidenceSpec (record : ContributionRecord)
    (target_city target_employer target_occupation : Option String) : ℚ :=
  let attrs := suppliedAttrs record target_city target_employer target_occupation
  if attrs = [] then 0
  else (attrs.map fun p => p.1 * p.2).sum / (attrs.map Prod.fst).sum

/-- Hard ceiling on pages fetched per query string (src/main.py MAX_PAGES). -/
def MAX_PAGES : Nat := 20

/-- One page of the upstream source's paginated response: the records plus
the two components of the continuation cursor. -/
structure FecPage where
  results : List ContributionRecord
  last_index : Option String
  last_date : Option String

/-- Python truthiness of the cursor components (None and empty are falsy). -/
def truthy : Option String → Bool
  | none => false
  | some s => s != ""

/-- The pagination loop of src/main.py fetch_all_pages.  The external source
is an oracle giving, for the n-th request issued, either a transport/protocol
failure or a page.  Returns the outcome together with the total number of
requests issued.  `lastIndex`/`lastDate` mirror the cursor variables passed
back to the source on each request. -/
def fetchGo (src : Nat → Except String FecPage) (pagesFetched reqIdx : Nat)
    (lastIndex lastDate : Option String) (acc : List ContributionRecord) :
    Except String (List ContributionRecord) × Nat :=
  if h : pagesFetched < MAX_PAGES then
    match src reqIdx with
    | Except.error e => (Except.error e, reqIdx + 1)
    | Except.ok page =>
      if page.results = [] then (Except.ok acc, reqIdx + 1)
      else
        if truthy page.last_index && truthy page.last_date then
          fetchGo src (pagesFetched + 1) (reqIdx + 1) page.last_index page.last_date
            (acc ++ page.results)
        else (Except.ok (acc ++ page.results), reqIdx + 1)
  else (Except.ok acc, reqIdx)
termination_by MAX_PAGES - pagesFetched
decreasing_by omega

/-- All paginated results for one query string, or the propagated failure of
the first failing page request (src/main.py fetch_all_pages). -/
def fetch_all_pages (src : Nat → Except String FecPage) :
    Except String (List ContributionRecord) :=
  (fetchGo src 0 0 none none []).1

/-- Number of page requests fetch_all_pages issues against the source. -/
def fetch_request_count (src : Nat → Except String FecPage) : Nat :=
  (fetchGo src 0 0 none none []).2

/-- The per-record identity key (committee identifier, transaction
identifier). -/
def uidOf (r : ContributionRecord) : String × String :=
  (r.committee_id, r.transaction_id)

/-- The defensive client-side state re-check of src/main.py
get_contributions: with an active state filter, keep only records whose
upper-cased contributor state equals the filter. -/
def stateOk (state : Option String) (r : ContributionRecord) : Bool :=
  if truthy state then pyUpper r.contributor_state == state.getD ("") else true

/-- The dedup-and-filter loop of src/main.py get_contributions, over the
stream of all variants' records: a record whose identity key was already
seen is dropped; otherwise the key is recorded as seen and the record is
kept exactly when it passes the state re-check. -/
def dedupFilter (state : Option String) :
    List (String × String) → List ContributionRecord → List ContributionRecord
  | _, [] => []
  | seen, r :: rs =>
    if uidOf r ∈ seen then dedupFilter state seen rs
    else
      if stateOk state r then r :: dedupFilter state (uidOf r :: seen) rs
      else dedupFilter state (uidOf r :: seen) rs

/-- The Deduplicator: merge the per-variant record sequences in order,
keeping the first occurrence of each identity key that passes the state
re-check. -/
def mergeVariants (state : Option String)
    (perVariant : List (List ContributionRecord)) : List ContributionRecord :=
  dedupFilter state [] perVariant.flatten

/-- ASCII model of str.title: upper-case every letter that follows a
non-letter, lower-case every other letter. -/
def titleGo : Bool → List Char → List Char
  | _, [] => []
  | prevAlpha, c :: cs =>
    (if c.isAlpha then (if prevAlpha then Char.toLower c else Char.toUpper c) else c)
      :: titleGo c.isAlpha cs

/-- ASCII model of str.title. -/
def pyTitle (s : String) : String :=
  ⟨titleGo false s.data⟩

/-- ASCII model of str.capitalize: first character upper-cased, the rest
lower-cased. -/
def pyCapitalize (s : String) : String :=
  match s.data with
  | [] => ""
  | c :: cs => ⟨Char.toUpper c :: cs.map Char.toLower⟩

/-- Split a character list at every character satisfying `p`, keeping empty
pieces, as Python's str.split with an explicit separator does. -/
def splitOnPred (p : Char → Bool) : List Char → List (List Char)
  | [] => [[]]
  | c :: cs =>
    if p c then [] :: splitOnPred p cs
    else
      match splitOnPred p cs with
      | [] => [[c]]
      | piece :: pieces => (c :: piece) :: pieces

/-- Python str.split with no separator: split on whitespace runs, dropping
empty pieces. -/
def pySplitWs (s : String) : List String :=
  ((splitOnPred Char.isWhitespace s.data).filter fun p => p ≠ []).map fun l => ⟨l⟩

/-- The Name Variant Expander of src/main.py get_contributions: the original
name with its upper, lower and title casings, plus, when the name contains a
space and splits into exactly two tokens, the reversed order in verbatim,
upper and capitalized casings. -/
def name_variants (contributor_name : String) : List String :=
  let base := [contributor_name, pyUpper contributor_name, pyLower contributor_name,
    pyTitle contributor_name]
  if (' ') ∈ contributor_name.data then
    match pySplitWs contributor_name with
    | [p0, p1] =>
      base ++ [p1 ++ ", " ++ p0,
        pyUpper p1 ++ ", " ++ pyUpper p0,
        pyCapitalize p1 ++ ", " ++ pyCapitalize p0]
    | _ => base
  else base

/-- Numeric value of a digit character. -/
def digitVal (c : Char) : Nat := c.toNat - ('0').toNat

/-- Value of a digit string read left to right. -/
def digitsToNat (l : List Char) : Nat := l.foldl (fun a c => a * 10 + digitVal c) 0

/-- Leap-year rule of the proleptic Gregorian calendar. -/
def isLeap (y : Nat) : Bool := (y % 4 == 0 && y % 100 != 0) || y % 400 == 0

/-- Number of days in a month, as datetime validates. -/
def daysInMonth (y m : Nat) : Nat :=
  if m = 2 then (if isLeap y then 29 else 28)
  else if m = 4 ∨ m = 6 ∨ m = 9 ∨ m = 11 then 30 else 31

/-- Model of datetime.strptime with format %Y-%m-%d: a four-digit year of at
least 1, a one- or two-digit month in 1..12, a one- or two-digit day valid
for that month, and nothing else in the string. -/
def parseDate (s : String) : Option (Nat × Nat × Nat) :=
  match splitOnPred (fun c => c == '-') s.data with
  | [ys, ms, ds] =>
    if (ys.all Char.isDigit ∧ ms.all Char.isDigit ∧ ds.all Char.isDigit)
        ∧ ys.length = 4 ∧ (ms.length = 1 ∨ ms.length = 2) ∧ (ds.length = 1 ∨ ds.length = 2)
        ∧ 1 ≤ digitsToNat ys
        ∧ 1 ≤ digitsToNat ms ∧ digitsToNat ms ≤ 12
        ∧ 1 ≤ digitsToNat ds
        ∧ digitsToNat ds ≤ daysInMonth (digitsToNat ys) (digitsToNat ms)
    then some (digitsToNat ys, digitsToNat ms, digitsToNat ds)
    else none
  | _ => none

/-- Comparison key of datetime.min, the date 0001-01-01. -/
def datetimeMinKey : Nat := 10101

/-- The sort key of src/main.py cluster_records safe_date: the parsed date as
a comparable number, or datetime.min's key when the date is missing or
unparsable. -/
def safe_date (r : ContributionRecord) : Nat :=
  match parseDate r.contribution_receipt_date with
  | some (y, m, d) => y * 10000 + m * 100 + d
  | none => datetimeMinKey

/-- Date order on records, as used by the clusterer's sort. -/
def dateLe (a b : ContributionRecord) : Prop := safe_date a ≤ safe_date b

instance : DecidableRel dateLe :=
  fun a b => inferInstanceAs (Decidable (safe_date a ≤ safe_date b))

instance : IsTotal ContributionRecord dateLe :=
  ⟨fun a b => Nat.le_total (safe_date a) (safe_date b)⟩

instance : IsTrans ContributionRecord dateLe :=
  ⟨fun _ _ _ hab hbc => Nat.le_trans hab hbc⟩

/-- Stable ascending sort of the records by contribution date, matching
Python's sorted with the safe_date key. -/
def sortRecords (records : List ContributionRecord) : List ContributionRecord :=
  List.insertionSort dateLe records

/-- The continuity test of src/main.py cluster_records: the next record `r`
continues the cluster of the immediately preceding record `last` when city
similarity exceeds 0.6 or employer or occupation similarity exceeds 0.7. -/
def continuityB (r last : ContributionRecord) : Bool :=
  decide (similarity r.contributor_city last.contributor_city > (3 : ℚ)/5)
    || (decide (similarity r.contributor_employer last.contributor_employer > (7 : ℚ)/10)
      || decide (similarity r.contributor_occupation last.contributor_occupation > (7 : ℚ)/10))

/-- The sequential scan of src/main.py cluster_records: append the next
record to the current cluster when continuity with the immediately preceding
record holds, otherwise close the current cluster and start a new one; the
preceding record is updated on every step. -/
def clusterScan (cur : List ContributionRecord) (last : ContributionRecord) :
    List ContributionRecord → List (List ContributionRecord)
  | [] => [cur]
  | r :: rs =>
    if continuityB r last then clusterScan (cur ++ [r]) r rs
    else cur :: clusterScan [r] r rs

/-- The clusters the Identity Clusterer builds: date-sort the records, then
scan them into contiguous continuity clusters. -/
def clustersOf (records : List ContributionRecord) : List (List ContributionRecord) :=
  match sortRecords records with
  | [] => []
  | f :: rest => clusterScan [f] f rest

/-- Round-half-to-even to an integer, as Python's round does. -/
def pyRoundInt (q : ℚ) : ℤ :=
  if q - ⌊q⌋ < 1/2 then ⌊q⌋
  else if q - ⌊q⌋ > 1/2 then ⌊q⌋ + 1
  else if ⌊q⌋ % 2 = 0 then ⌊q⌋ else ⌊q⌋ + 1

/-- Python round(x, 3). -/
def round3 (q : ℚ) : ℚ := (pyRoundInt (q * 1000) : ℚ) / 1000

/-- Average of the stored (rounded) per-record confidences of a cluster, as
src/main.py cluster_records computes for cluster selection. -/
def clusterAvg (tc te tocc : Option String) (c : List ContributionRecord) : ℚ :=
  (c.map fun r => round3 (match_confidence r tc te tocc)).sum / (c.length : ℚ)

/-- Descending order on (average confidence, cluster) pairs; ties keep the
earlier cluster first, matching Python's stable sort with reverse=True. -/
def scoreGe (p q : ℚ × List ContributionRecord) : Prop := q.1 ≤ p.1

instance : DecidableRel scoreGe :=
  fun p q => inferInstanceAs (Decidable (q.1 ≤ p.1))

instance : IsTotal (ℚ × List ContributionRecord) scoreGe :=
  ⟨fun p q => le_total q.1 p.1⟩

instance : IsTrans (ℚ × List ContributionRecord) scoreGe :=
  ⟨fun _ _ _ hab hbc => le_trans hbc hab⟩

/-- The Identity Clusterer (src/main.py cluster_records): empty input gives
two empty sequences; otherwise build the continuity clusters, score each
cluster by its average rounded confidence, sort the scored clusters in
stable descending order, and return the best cluster as the resolved
records with all remaining clusters flattened as the excluded records. -/
def cluster_records (records : List ContributionRecord) (tc te tocc : Option String) :
    List ContributionRecord × List ContributionRecord :=
  if records = [] then ([], [])
  else
    match List.insertionSort scoreGe
        ((clustersOf records).map fun c => (clusterAvg tc te tocc c, c)) with
    | [] => ([], records)
    | best :: rest => (best.2, (rest.map Prod.snd).flatten)

/-- A concrete well-formed ledger record, used to instantiate theorems. -/
def sampleRecord : ContributionRecord :=
  ⟨"C00000001", "T1", "2020-01-01", "Boston", "MA", "Acme", "Engineer", 50⟩

/-- A concrete record with an unparsable contribution date. -/
def badDateRecord : ContributionRecord :=
  ⟨"C00000002", "T2", "not a date", "Boston", "MA", "Acme", "Engineer", 10⟩

/-- A source whose every page is non-empty and carries a full continuation
cursor: the repeating-cursor scenario. -/
def steadySrc : Nat → Except String FecPage :=
  fun _ => Except.ok ⟨[sampleRecord], some ("1"), some ("2020-01-01")⟩

/-- A source whose first page request already fails. -/
def failSrc : Nat → Except String FecPage :=
  fun _ => Except.error ("boom")

theorem commonPrefixLen_le_left : ∀ a b : List Char, commonPrefixLen a b ≤ a.length := by
  intro a
  induction a with
  | nil => intro b; cases b <;> simp [commonPrefixLen]
  | cons x xs ih =>
    intro b
    cases b with
    | nil => simp [commonPrefixLen]
    | cons y ys =>
      rw [commonPrefixLen]
      split
      · simpa using ih ys
      · simp

theorem commonPrefixLen_le_right : ∀ a b : List Char, commonPrefixLen a b ≤ b.length := by
  intro a
  induction a with
  | nil => intro b; cases b <;> simp [commonPrefixLen]
  | cons x xs ih =>
    intro b
    cases b with
    | nil => simp [commonPrefixLen]
    | cons y ys =>
      rw [commonPrefixLen]
      split
      · simpa using ih ys
      · simp

theorem commonPrefixLen_self : ∀ a : List Char, commonPrefixLen a a = a.length := by
  intro a
  induction a with
  | nil => rfl
  | cons x xs ih => simp [commonPrefixLen, ih]

theorem commonPrefixLen_ne_nil {a b : List Char} (h : commonPrefixLen a b ≠ 0) :
    a ≠ [] ∧ b ≠ [] := by
  cases a <;> cases b <;> simp [commonPrefixLen] at h ⊢

theorem matchedSize_le : ∀ (n : Nat) (a b : List Char), a.length ≤ n →
    matchedSize a b ≤ a.length ∧ matchedSize a b ≤ b.length := by
  intro n
  induction n with
  | zero =>
    intro a b hlen
    have ha : a = [] := List.eq_nil_of_length_eq_zero (Nat.le_zero.mp hlen)
    subst ha
    rw [matchedSize]
    have hz : blockLen [] b (findLongestMatch [] b).1 (findLongestMatch [] b).2 = 0 := by
      unfold blockLen
      cases hdrop : (List.drop (findLongestMatch [] b).2 b) <;> simp [commonPrefixLen]
    rw [dif_pos hz]
    simp
  | succ n ih =>
    intro a b hlen
    rw [matchedSize]
    split
    · simp
    · rename_i h
      have ⟨hdropa, hdropb⟩ := commonPrefixLen_ne_nil (h ∘ id)
      have hia : (findLongestMatch a b).1 < a.length := by
        by_contra hge
        exact hdropa (List.drop_eq_nil_of_le (Nat.le_of_not_lt hge))
      have hjb : (findLongestMatch a b).2 < b.length := by
        by_contra hge
        exact hdropb (List.drop_eq_nil_of_le (Nat.le_of_not_lt hge))
      have hka : blockLen a b (findLongestMatch a b).1 (findLongestMatch a b).2
          ≤ a.length - (findLongestMatch a b).1 := by
        unfold blockLen
        simpa [List.length_drop] using
          commonPrefixLen_le_left (a.drop (findLongestMatch a b).1)
            (b.drop (findLongestMatch a b).2)
      have hkb : blockLen a b (findLongestMatch a b).1 (findLongestMatch a b).2
          ≤ b.length - (findLongestMatch a b).2 := by
        unfold blockLen
        simpa [List.length_drop] using
          commonPrefixLen_le_right (a.drop (findLongestMatch a b).1)
            (b.drop (findLongestMatch a b).2)
      have hk1 : 1 ≤ blockLen a b (findLongestMatch a b).1 (findLongestMatch a b).2 :=
        Nat.one_le_iff_ne_zero.mpr h
      have ht := ih (a.take (findLongestMatch a b).1) (b.take (findLongestMatch a b).2)
        (by simp [List.length_take]; omega)
      have hd := ih (a.drop ((findLongestMatch a b).1
            + blockLen a b (findLongestMatch a b).1 (findLongestMatch a b).2))
          (b.drop ((findLongestMatch a b).2
            + blockLen a b (findLongestMatch a b).1 (findLongestMatch a b).2))
        (by simp [List.length_drop]; omega)
      obtain ⟨ht1, ht2⟩ := ht
      obtain ⟨hd1, hd2⟩ := hd
      simp only [List.length_take, List.length_drop] at ht1 ht2 hd1 hd2
      constructor <;> omega

theorem foldl_pickMax_keep (f : Nat × Nat → Nat) :
    ∀ (l : List (Nat × Nat)) (init : Nat × Nat), (∀ p ∈ l, f p ≤ f init) →
    l.foldl (fun best p => if f p > f best then p else best) init = init := by
  intro l
  induction l with
  | nil => intro init _; rfl
  | cons x xs ih =>
    intro init h
    have hx : f x ≤ f init := h x (List.mem_cons_self x xs)
    simp only [List.foldl_cons]
    rw [if_neg (by omega)]
    exact ih init fun p hp => h p (List.mem_cons_of_mem x hp)

theorem findLongestMatch_self (z : List Char) : findLongestMatch z z = (0, 0) := by
  unfold findLongestMatch
  exact foldl_pickMax_keep (fun p => blockLen z z p.1 p.2) (indexPairs z z) (0, 0)
    (by
      intro p _
      show blockLen z z p.1 p.2 ≤ blockLen z z 0 0
      unfold blockLen
      simp only [List.drop_zero]
      rw [commonPrefixLen_self]
      exact Nat.le_trans (commonPrefixLen_le_left _ _) (by simp [List.length_drop]))

theorem matchedSize_nil_nil : matchedSize [] [] = 0 :=
  Nat.le_zero.mp (matchedSize_le 0 [] [] (by simp)).1

theorem matchedSize_self (z : List Char) : matchedSize z z = z.length := by
  rcases eq_or_ne z [] with hz | hz
  · subst hz; exact matchedSize_nil_nil
  · rw [matchedSize]
    have hflm := findLongestMatch_self z
    have hbl : blockLen z z (findLongestMatch z z).1 (findLongestMatch z z).2 = z.length := by
      rw [hflm]
      unfold blockLen
      simpa using commonPrefixLen_self z
    rw [dif_neg (by rw [hbl]; simpa using hz)]
    rw [hbl, hflm]
    simp [matchedSize_nil_nil]

theorem matcherScore_nonneg (a b : List Char) : 0 ≤ matcherScore a b := by
  unfold matcherScore
  split
  · norm_num
  · positivity

theorem matcherScore_le_one (a b : List Char) : matcherScore a b ≤ 1 := by
  unfold matcherScore
  split
  · norm_num
  · rename_i hne
    have hpos : (0 : ℚ) < (a.length : ℚ) + (b.length : ℚ) := by
      have : 0 < a.length + b.length := Nat.pos_of_ne_zero hne
      exact_mod_cast this
    rw [div_le_one hpos]
    have h1 := (matchedSize_le a.length a b (Nat.le_refl _)).1
    have h2 := (matchedSize_le a.length a b (Nat.le_refl _)).2
    have hnat : 2 * matchedSize a b ≤ a.length + b.length := by omega
    exact_mod_cast hnat

theorem matcherScore_self {z : List Char} (hz : z ≠ []) : matcherScore z z = 1 := by
  unfold matcherScore
  have hlen : z.length ≠ 0 := by simpa using hz
  rw [if_neg (by omega)]
  rw [matchedSize_self]
  rw [div_eq_one_iff_eq (by exact_mod_cast by omega)]
  ring

theorem string_ne_empty_data {a : String} (h : a ≠ "") : a.data ≠ [] := by
  intro hd
  apply h
  cases a
  simp_all

/-- C9: pairwise textual similarity always lies in [0,1]; it is 1 on any
non-empty string compared with itself and, case-insensitively, on strings
equal after case-folding; and it is 0 whenever either argument is empty
(or absent, which the code reads as empty). -/
theorem similarity_bounds_identity_empty (a b : String) :
    0 ≤ similarity a b ∧ similarity a b ≤ 1
    ∧ (a ≠ "" → similarity a a = 1)
    ∧ (a ≠ "" → b ≠ "" → pyLower a = pyLower b → similarity a b = 1)
    ∧ similarity a ("") = 0 ∧ similarity ("") b = 0 := by
  refine ⟨?_, ?_, ?_, ?_, ?_, ?_⟩
  · unfold similarity
    split
    · norm_num
    · exact matcherScore_nonneg _ _
  · unfold similarity
    split
    · norm_num
    · exact matcherScore_le_one _ _
  · intro ha
    unfold similarity
    rw [if_neg (by simp [ha])]
    exact matcherScore_self (by simpa [pyLower] using string_ne_empty_data ha)
  · intro ha hb hl
    unfold similarity
    rw [if_neg (by simp [ha, hb])]
    rw [hl]
    exact matcherScore_self (by simpa [pyLower] using string_ne_empty_data hb)
  · simp [similarity]
  · simp [similarity]

theorem similarity_bounds_identity_empty_witness : similarity ("ab") ("ab") = 1 :=
  (similarity_bounds_identity_empty ("ab") ("AB")).2.2.1 (by decide)

/-- C4: profile confidence is the weighted average of the city (0.4),
employer (0.3) and occupation (0.3) similarities with the weights
renormalized over the target attributes actually supplied, and it is 0 for
every record when no target attribute is supplied. -/
theorem match_confidence_renormalized (record : ContributionRecord)
    (tc te tocc : Option String) :
    match_confidence record tc te tocc = confidenceSpec record tc te tocc
    ∧ (truthyS tc = false → truthyS te = false → truthyS tocc = false →
        match_confidence record tc te tocc = 0) := by
  constructor
  · unfold match_confidence confidenceSpec suppliedAttrs
    cases htc : truthyS tc <;> cases hte : truthyS te <;> cases hto : truthyS tocc <;>
        simp [htc, hte, hto] <;> norm_num <;> ring_nf
  · intro h1 h2 h3
    unfold match_confidence
    simp [h1, h2, h3]

theorem match_confidence_renormalized_witness :
    match_confidence sampleRecord none none none = 0 :=
  (match_confidence_renormalized sampleRecord none none none).2 rfl rfl rfl

theorem dedupFilter_nodup (state : Option String) :
    ∀ (l : List ContributionRecord) (seen : List (String × String)),
    ((dedupFilter state seen l).map uidOf).Nodup
    ∧ ∀ r ∈ dedupFilter state seen l, uidOf r ∉ seen := by
  intro l
  induction l with
  | nil => intro seen; simp [dedupFilter]
  | cons x xs ih =>
    intro seen
    rw [dedupFilter]
    split
    · exact ih seen
    · rename_i hseen
      split
      · constructor
        · simp only [List.map_cons, List.nodup_cons]
          refine ⟨?_, (ih (uidOf x :: seen)).1⟩
          intro hmem
          obtain ⟨r, hr, hru⟩ := List.mem_map.mp hmem
          exact (ih (uidOf x :: seen)).2 r hr (by rw [hru]; exact List.mem_cons_self _ _)
        · intro r hr
          rcases List.mem_cons.mp hr with h | h
          · subst h; exact hseen
          · exact fun hmem => (ih (uidOf x :: seen)).2 r h (List.mem_cons_of_mem _ hmem)
      · constructor
        · exact (ih (uidOf x :: seen)).1
        · exact fun r hr hmem =>
            (ih (uidOf x :: seen)).2 r hr (List.mem_cons_of_mem _ hmem)

theorem dedupFilter_sublist (state : Option String) :
    ∀ (l : List ContributionRecord) (seen : List (String × String)),
    (dedupFilter state seen l).Sublist l := by
  intro l
  induction l with
  | nil => intro seen; simp [dedupFilter]
  | cons x xs ih =>
    intro seen
    rw [dedupFilter]
    split
    · exact (ih seen).cons x
    · split
      · exact (ih (uidOf x :: seen)).cons₂ x
      · exact (ih (uidOf x :: seen)).cons x

theorem dedupFilter_first_occurrence (state : Option String) :
    ∀ (l : List ContributionRecord) (seen : List (String × String))
    (r : ContributionRecord), r ∈ dedupFilter state seen l →
    uidOf r ∉ seen ∧ (l.filter fun x => uidOf x == uidOf r).head? = some r := by
  intro l
  induction l with
  | nil => intro seen r hr; simp [dedupFilter] at hr
  | cons x xs ih =>
    intro seen r hr
    rw [dedupFilter] at hr
    by_cases hseen : uidOf x ∈ seen
    · rw [if_pos hseen] at hr
      obtain ⟨hnot, hfirst⟩ := ih seen r hr
      refine ⟨hnot, ?_⟩
      rw [List.filter_cons, if_neg ?_]
      · exact hfirst
      · simp only [beq_iff_eq]
        intro huid
        exact hnot (huid ▸ hseen)
    · rw [if_neg hseen] at hr
      split at hr
      · rcases List.mem_cons.mp hr with h | h
        · subst h
          refine ⟨hseen, ?_⟩
          rw [List.filter_cons, if_pos (by simp)]
          rfl
        · obtain ⟨hnot, hfirst⟩ := ih (uidOf x :: seen) r h
          have hxr : uidOf x ≠ uidOf r := fun he =>
            hnot (he ▸ List.mem_cons_self _ _)
          refine ⟨fun hmem => hnot (List.mem_cons_of_mem _ hmem), ?_⟩
          rw [List.filter_cons, if_neg (by simpa using hxr)]
          exact hfirst
      · obtain ⟨hnot, hfirst⟩ := ih (uidOf x :: seen) r hr
        have hxr : uidOf x ≠ uidOf r := fun he =>
          hnot (he ▸ List.mem_cons_self _ _)
        refine ⟨fun hmem => hnot (List.mem_cons_of_mem _ hmem), ?_⟩
        rw [List.filter_cons, if_neg (by simpa using hxr)]
        exact hfirst

theorem dedupFilter_stateOk (state : Option String) :
    ∀ (l : List ContributionRecord) (seen : List (String × String))
    (r : ContributionRecord), r ∈ dedupFilter state seen l → stateOk state r = true := by
  intro l
  induction l with
  | nil => intro seen r hr; simp [dedupFilter] at hr
  | cons x xs ih =>
    intro seen r hr
    rw [dedupFilter] at hr
    split at hr
    · exact ih seen r hr
    · split at hr
      · rcases List.mem_cons.mp hr with h | h
        · subst h; assumption
        · exact ih _ r h
      · exact ih _ r hr

/-- C2: the Deduplicator's output has at most one record per identity key,
is a subsequence of the merged per-variant stream whose every element is the
stream's first record with its key (first-seen order), and, when a state
filter is active, contains no record whose own upper-cased contributor state
differs from the filter. -/
theorem dedup_key_unique_order_state (state : Option String)
    (perVariant : List (List ContributionRecord)) :
    ((mergeVariants state perVariant).map uidOf).Nodup
    ∧ (mergeVariants state perVariant).Sublist perVariant.flatten
    ∧ (∀ r ∈ mergeVariants state perVariant,
        (perVariant.flatten.filter fun x => uidOf x == uidOf r).head? = some r)
    ∧ (∀ r ∈ mergeVariants state perVariant, ∀ s, state = some s → s ≠ "" →
        pyUpper r.contributor_state = s) := by
  refine ⟨(dedupFilter_nodup state perVariant.flatten []).1,
    dedupFilter_sublist state perVariant.flatten [],
    fun r hr => (dedupFilter_first_occurrence state perVariant.flatten [] r hr).2,
    fun r hr s hs hne => ?_⟩
  have hok := dedupFilter_stateOk state perVariant.flatten [] r hr
  rw [hs] at hok
  unfold stateOk at hok
  rw [if_pos (by simp [truthy, hne])] at hok
  simpa using hok

theorem dedup_key_unique_order_state_witness :
    pyUpper sampleRecord.contributor_state = "MA" :=
  (dedup_key_unique_order_state (some ("MA")) [[sampleRecord]]).2.2.2 sampleRecord
    (by decide) ("MA") rfl (by decide)

theorem fetchGo_count_le : ∀ (k : Nat) (src : Nat → Except String FecPage)
    (pf ri : Nat) (li ld : Option String) (acc : List ContributionRecord),
    MAX_PAGES - pf = k → (fetchGo src pf ri li ld acc).2 ≤ ri + k := by
  intro k
  induction k with
  | zero =>
    intro src pf ri li ld acc hk
    rw [fetchGo, dif_neg (by omega)]
    simp
  | succ k ih =>
    intro src pf ri li ld acc hk
    rw [fetchGo, dif_pos (by omega)]
    cases hsrc : src ri with
    | error e => simp
    | ok page =>
      simp only
      split
      · simp
      · split
        · exact Nat.le_trans (ih src (pf + 1) (ri + 1) page.last_index page.last_date
            (acc ++ page.results) (by omega)) (by omega)
        · simp

theorem fetchGo_count_exact : ∀ (k : Nat) (src : Nat → Except String FecPage)
    (pf ri : Nat) (li ld : Option String) (acc : List ContributionRecord),
    MAX_PAGES - pf = k →
    (∀ n, ∃ p, src n = Except.ok p ∧ p.results ≠ [] ∧ truthy p.last_index = true
      ∧ truthy p.last_date = true) →
    (fetchGo src pf ri li ld acc).2 = ri + k := by
  intro k
  induction k with
  | zero =>
    intro src pf ri li ld acc hk hgood
    rw [fetchGo, dif_neg (by omega)]
    simp
  | succ k ih =>
    intro src pf ri li ld acc hk hgood
    rw [fetchGo, dif_pos (by omega)]
    obtain ⟨p, hp, hres, hli, hld⟩ := hgood ri
    rw [hp]
    simp only
    rw [if_neg hres, if_pos (by rw [hli, hld]; rfl)]
    rw [ih src (pf + 1) (ri + 1) p.last_index p.last_date (acc ++ p.results) (by omega) hgood]
    omega

/-- C6: for every source behaviour, the Paginated Retriever issues at most
20 page requests for one query string; and a source that keeps returning
non-empty pages with a full continuation cursor indefinitely (in particular
one repeating the same cursor forever) is cut off at exactly the 20-page
ceiling rather than looping forever. -/
theorem fetch_pages_bounded (src : Nat → Except String FecPage) :
    fetch_request_count src ≤ MAX_PAGES
    ∧ ((∀ n, ∃ p, src n = Except.ok p ∧ p.results ≠ [] ∧ truthy p.last_index = true
        ∧ truthy p.last_date = true) → fetch_request_count src = MAX_PAGES) := by
  constructor
  · simpa using fetchGo_count_le MAX_PAGES src 0 0 none none [] rfl
  · intro hgood
    simpa using fetchGo_count_exact MAX_PAGES src 0 0 none none [] rfl hgood

theorem fetch_pages_bounded_witness : fetch_request_count steadySrc = MAX_PAGES :=
  (fetch_pages_bounded steadySrc).2
    (fun _ => ⟨⟨[sampleRecord], some ("1"), some ("2020-01-01")⟩, rfl,
      by simp, by decide, by decide⟩)

theorem fetchGo_error_propagates : ∀ (n : Nat) (src : Nat → Except String FecPage)
    (pf ri : Nat) (li ld : Option String) (acc : List ContributionRecord) (e : String),
    pf + n < MAX_PAGES →
    (∀ m, m < n → ∃ p, src (ri + m) = Except.ok p ∧ p.results ≠ []
      ∧ truthy p.last_index = true ∧ truthy p.last_date = true) →
    src (ri + n) = Except.error e →
    (fetchGo src pf ri li ld acc).1 = Except.error e := by
  intro n
  induction n with
  | zero =>
    intro src pf ri li ld acc e hlt hgood herr
    rw [fetchGo, dif_pos (by omega)]
    rw [show src ri = Except.error e from by simpa using herr]
  | succ n ih =>
    intro src pf ri li ld acc e hlt hgood herr
    rw [fetchGo, dif_pos (by omega)]
    obtain ⟨p, hp, hres, hli, hld⟩ := hgood 0 (Nat.succ_pos n)
    rw [show src ri = Except.ok p from by simpa using hp]
    simp only
    rw [if_neg hres, if_pos (by rw [hli, hld]; rfl)]
    apply ih src (pf + 1) (ri + 1) p.last_index p.last_date (acc ++ p.results) e (by omega)
    · intro m hm
      have := hgood (m + 1) (by omega)
      simpa [Nat.add_assoc, Nat.add_comm 1 m] using this
    · have : ri + (n + 1) = ri + 1 + n := by omega
      rw [← this]
      exact herr

/-- C7: if any page request for a query string fails, the whole retrieval
for that query string evaluates to the propagated error: the records
accumulated from earlier successful pages are never returned as a partial
success. -/
theorem fetch_failure_aborts (src : Nat → Except String FecPage) (n : Nat) (e : String)
    (hn : n < MAX_PAGES)
    (hgood : ∀ m, m < n → ∃ p, src m = Except.ok p ∧ p.results ≠ []
      ∧ truthy p.last_index = true ∧ truthy p.last_date = true)
    (herr : src n = Except.error e) :
    fetch_all_pages src = Except.error e
    ∧ ∀ l, fetch_all_pages src ≠ Except.ok l := by
  have h : (fetchGo src 0 0 none none []).1 = Except.error e := by
    apply fetchGo_error_propagates n src 0 0 none none [] e (by omega)
    · intro m hm
      simpa using hgood m hm
    · simpa using herr
  exact ⟨h, fun l hl => by rw [fetch_all_pages, h] at hl; cases hl⟩

theorem fetch_failure_aborts_witness : fetch_all_pages failSrc = Except.error ("boom") :=
  (fetch_failure_aborts failSrc 0 ("boom") (by decide)
    (fun m hm => absurd hm (Nat.not_lt_zero m)) rfl).1

theorem parseDate_bounds {s : String} {y m d : Nat}
    (h : parseDate s = some (y, m, d)) : 1 ≤ y ∧ 1 ≤ m ∧ 1 ≤ d := by
  unfold parseDate at h
  split at h
  · split at h
    · rename_i hcond
      injection h with h1
      simp only [Prod.mk.injEq] at h1
      obtain ⟨hy, hm, hd⟩ := h1
      subst hy; subst hm; subst hd
      exact ⟨hcond.2.2.2.2.1, hcond.2.2.2.2.2.1, hcond.2.2.2.2.2.2.2.1⟩
    · cases h
  · cases h

theorem safe_date_min (r : ContributionRecord) : datetimeMinKey ≤ safe_date r := by
  unfold safe_date
  split
  · rename_i y m d hp
    obtain ⟨hy, hm, hd⟩ := parseDate_bounds hp
    unfold datetimeMinKey
    omega
  · exact Nat.le_refl _

theorem clusterScan_flatten : ∀ (rs : List ContributionRecord)
    (cur : List ContributionRecord) (last : ContributionRecord),
    (clusterScan cur last rs).flatten = cur ++ rs := by
  intro rs
  induction rs with
  | nil => intro cur last; simp [clusterScan]
  | cons r rs ih =>
    intro cur last
    rw [clusterScan]
    split
    · rw [ih]
      simp
    · rw [List.flatten_cons, ih]
      simp

theorem clusterScan_ne_nil : ∀ (rs : List ContributionRecord)
    (cur : List ContributionRecord) (last : ContributionRecord), cur ≠ [] →
    ∀ c ∈ clusterScan cur last rs, c ≠ [] := by
  intro rs
  induction rs with
  | nil =>
    intro cur last hcur c hc
    simp [clusterScan] at hc
    exact hc ▸ hcur
  | cons r rs ih =>
    intro cur last hcur c hc
    rw [clusterScan] at hc
    split at hc
    · exact ih (cur ++ [r]) r (by simp) c hc
    · rcases List.mem_cons.mp hc with h | h
      · exact h ▸ hcur
      · exact ih [r] r (by simp) c h

theorem clusterScan_cons_head : ∀ (rs : List ContributionRecord)
    (cur : List ContributionRecord) (last : ContributionRecord), cur ≠ [] →
    ∃ c cs, clusterScan cur last rs = c :: cs ∧ c.head? = cur.head? := by
  intro rs
  induction rs with
  | nil => intro cur last _; exact ⟨cur, [], rfl, rfl⟩
  | cons r rs ih =>
    intro cur last hcur
    rw [clusterScan]
    split
    · obtain ⟨c, cs, heq, hh⟩ := ih (cur ++ [r]) r (by simp)
      refine ⟨c, cs, heq, ?_⟩
      rw [hh]
      cases cur with
      | nil => exact absurd rfl hcur
      | cons x xs => simp
    · exact ⟨cur, clusterScan [r] r rs, rfl, rfl⟩

theorem clusterScan_chain : ∀ (rs : List ContributionRecord)
    (cur : List ContributionRecord) (last : ContributionRecord),
    cur.getLast? = some last →
    List.Chain' (fun x y => continuityB y x = true) cur →
    ∀ c ∈ clusterScan cur last rs, List.Chain' (fun x y => continuityB y x = true) c := by
  intro rs
  induction rs with
  | nil =>
    intro cur last _ hchain c hc
    simp [clusterScan] at hc
    exact hc ▸ hchain
  | cons r rs ih =>
    intro cur last hlast hchain c hc
    rw [clusterScan] at hc
    split at hc
    · rename_i hcont
      refine ih (cur ++ [r]) r (by simp) ?_ c hc
      refine List.chain'_append.mpr ⟨hchain, List.chain'_singleton r, ?_⟩
      intro x hx y hy
      rw [hlast] at hx
      simp at hx hy
      rw [← hx, ← hy]
      exact hcont
    · rcases List.mem_cons.mp hc with h | h
      · exact h ▸ hchain
      · exact ih [r] r rfl (List.chain'_singleton r) c h

theorem clusterScan_boundary : ∀ (rs : List ContributionRecord)
    (cur : List ContributionRecord) (last : ContributionRecord),
    cur.getLast? = some last →
    List.Chain' (fun c1 c2 => ∀ x y, c1.getLast? = some x → c2.head? = some y →
      continuityB y x = false) (clusterScan cur last rs) := by
  intro rs
  induction rs with
  | nil => intro cur last _; simp [clusterScan]
  | cons r rs ih =>
    intro cur last hlast
    rw [clusterScan]
    split
    · exact ih (cur ++ [r]) r (by simp)
    · rename_i hcont
      obtain ⟨c, cs, heq, hh⟩ := clusterScan_cons_head rs [r] r (by simp)
      rw [heq]
      refine List.chain'_cons'.mpr ⟨?_, heq ▸ ih [r] r rfl⟩
      intro y hy x1 y1 hx1 hy1
      simp at hy
      rw [← hy, hh] at hy1
      simp at hy1
      rw [hlast] at hx1
      injection hx1 with hx1
      rw [← hy1, ← hx1]
      simpa using hcont

theorem clustersOf_flatten (records : List ContributionRecord) :
    (clustersOf records).flatten = sortRecords records := by
  unfold clustersOf
  split
  · rename_i hs
    rw [hs]
    rfl
  · rename_i f rest hs
    rw [hs, clusterScan_flatten]
    rfl

theorem clustersOf_ne_nil {records : List ContributionRecord} (h : records ≠ []) :
    clustersOf records ≠ [] := by
  unfold clustersOf
  split
  · rename_i hs
    exfalso
    apply h
    have hperm := List.perm_insertionSort dateLe records
    rw [show List.insertionSort dateLe records = sortRecords records from rfl, hs] at hperm
    exact hperm.symm.eq_nil
  · rename_i f rest hs
    obtain ⟨c, cs, heq, _⟩ := clusterScan_cons_head rest [f] f (by simp)
    rw [heq]
    simp

theorem clustersOf_mem_ne_nil {records : List ContributionRecord} :
    ∀ c ∈ clustersOf records, c ≠ [] := by
  intro c hc
  unfold clustersOf at hc
  split at hc
  · simp at hc
  · exact clusterScan_ne_nil _ [_] _ (by simp) c hc

theorem insertionSort_head_firstMax :
    ∀ (l : List (ℚ × List ContributionRecord)) (b : ℚ × List ContributionRecord)
    (rest : List (ℚ × List ContributionRecord)),
    List.insertionSort scoreGe l = b :: rest →
    ∃ (i : Nat) (h : i < l.length), b = l.get ⟨i, h⟩
      ∧ (∀ (j : Nat) (hj : j < l.length), (l.get ⟨j, hj⟩).1 ≤ b.1)
      ∧ (∀ (j : Nat) (hj : j < l.length), j < i → (l.get ⟨j, hj⟩).1 < b.1) := by
  intro l
  induction l with
  | nil => intro b rest h; simp [List.insertionSort] at h
  | cons x xs ih =>
    intro b rest h
    rw [List.insertionSort] at h
    cases hxs : List.insertionSort scoreGe xs with
    | nil =>
      have hxsnil : xs = [] := by
        have hlen := List.length_insertionSort scoreGe xs
        rw [hxs] at hlen
        exact List.eq_nil_of_length_eq_zero hlen.symm
      rw [hxs] at h
      simp [List.orderedInsert] at h
      obtain ⟨hb, _⟩ := h
      subst hxsnil
      refine ⟨0, by simp, by simp [hb], ?_, ?_⟩
      · intro j hj
        simp at hj
        subst hj
        simp [hb]
      · intro j hj hj0
        omega
    | cons y ys =>
      rw [hxs, List.orderedInsert] at h
      obtain ⟨i', hi', hbi', hmax', hstrict'⟩ := ih y ys hxs
      by_cases hxy : scoreGe x y
      · rw [if_pos hxy] at h
        injection h with h1 h2
        refine ⟨0, by simp, by simp [h1], ?_, ?_⟩
        · intro j hj
          cases j with
          | zero => simp [← h1]
          | succ j =>
            have hjx : j < xs.length := by simpa using hj
            have hle := hmax' j hjx
            have hyx : y.1 ≤ x.1 := hxy
            have : (x :: xs).get ⟨j + 1, hj⟩ = xs.get ⟨j, hjx⟩ := rfl
            rw [this, ← h1]
            exact le_trans hle hyx
        · intro j hj hj0
          omega
      · rw [if_neg hxy] at h
        injection h with h1 h2
        have hxlt : x.1 < y.1 := by
          have := lt_of_not_le (fun hc => hxy hc)
          exact this
        refine ⟨i' + 1, by simpa using Nat.succ_lt_succ hi', ?_, ?_, ?_⟩
        · have : (x :: xs).get ⟨i' + 1, by simpa using Nat.succ_lt_succ hi'⟩
            = xs.get ⟨i', hi'⟩ := rfl
          rw [this, ← h1]
          exact hbi'
        · intro j hj
          cases j with
          | zero =>
            have : (x :: xs).get ⟨0, hj⟩ = x := rfl
            rw [this, ← h1]
            exact le_of_lt hxlt
          | succ j =>
            have hjx : j < xs.length := by simpa using hj
            have : (x :: xs).get ⟨j + 1, hj⟩ = xs.get ⟨j, hjx⟩ := rfl
            rw [this, ← h1]
            exact hmax' j hjx
        · intro j hj hlt
          cases j with
          | zero =>
            have : (x :: xs).get ⟨0, hj⟩ = x := rfl
            rw [this, ← h1]
            exact hxlt
          | succ j =>
            have hjx : j < xs.length := by simpa using hj
            have : (x :: xs).get ⟨j + 1, hj⟩ = xs.get ⟨j, hjx⟩ := rfl
            rw [this, ← h1]
            exact hstrict' j hjx (by omega)

theorem insertionSort_const_fst :
    ∀ (l : List (ℚ × List ContributionRecord)) (k : ℚ), (∀ p ∈ l, p.1 = k) →
    List.insertionSort scoreGe l = l := by
  intro l
  induction l with
  | nil => intro k _; rfl
  | cons x xs ih =>
    intro k h
    rw [List.insertionSort, ih k (fun p hp => h p (List.mem_cons_of_mem _ hp))]
    cases xs with
    | nil => rfl
    | cons y ys =>
      rw [List.orderedInsert, if_pos]
      show y.1 ≤ x.1
      rw [h x (List.mem_cons_self _ _), h y (by simp)]

theorem cluster_records_perm (records : List ContributionRecord)
    (tc te tocc : Option String) :
    ((cluster_records records tc te tocc).1
      ++ (cluster_records records tc te tocc).2).Perm records := by
  by_cases hrec : records = []
  · subst hrec
    simp [cluster_records]
  · unfold cluster_records
    rw [if_neg hrec]
    cases hs : List.insertionSort scoreGe
        ((clustersOf records).map fun c => (clusterAvg tc te tocc c, c)) with
    | nil =>
      exfalso
      have hlen := List.length_insertionSort scoreGe
        ((clustersOf records).map fun c => (clusterAvg tc te tocc c, c))
      rw [hs] at hlen
      simp at hlen
      exact clustersOf_ne_nil hrec (List.eq_nil_of_length_eq_zero hlen.symm)
    | cons best rest =>
      dsimp only
      have hp1 : (best :: rest).Perm
          ((clustersOf records).map fun c => (clusterAvg tc te tocc c, c)) := by
        rw [← hs]
        exact List.perm_insertionSort _ _
      have hp3 := (hp1.map Prod.snd).flatMap_right id
      rw [List.flatMap_id, List.flatMap_id] at hp3
      have hmap : ∀ cs : List (List ContributionRecord),
          ((cs.map fun c => (clusterAvg tc te tocc c, c)).map Prod.snd) = cs := by
        intro cs
        induction cs with
        | nil => rfl
        | cons c cs ih => simp only [List.map_cons, ih]
      rw [hmap, clustersOf_flatten records] at hp3
      have hgoal : best.2 ++ (rest.map Prod.snd).flatten
          = ((best :: rest).map Prod.snd).flatten := by simp
      rw [hgoal]
      exact hp3.trans (List.perm_insertionSort _ _)

/-- C1: the Identity Clusterer's output is an exact partition of its input:
resolved and excluded together are a permutation of the input records (none
lost, none duplicated), empty input yields two empty sequences, and on
duplicate-free input the two sides are disjoint. -/
theorem cluster_records_exact_partition (records : List ContributionRecord)
    (tc te tocc : Option String) :
    ((cluster_records records tc te tocc).1
      ++ (cluster_records records tc te tocc).2).Perm records
    ∧ cluster_records ([] : List ContributionRecord) tc te tocc = ([], [])
    ∧ (records.Nodup → (cluster_records records tc te tocc).1.Disjoint
        (cluster_records records tc te tocc).2) := by
  refine ⟨cluster_records_perm records tc te tocc, by simp [cluster_records], fun hnd => ?_⟩
  have hnodup : ((cluster_records records tc te tocc).1
      ++ (cluster_records records tc te tocc).2).Nodup :=
    ((cluster_records_perm records tc te tocc).nodup_iff).mpr hnd
  exact ((List.nodup_append.mp hnodup)).2.2

theorem cluster_records_exact_partition_witness :
    (cluster_records [sampleRecord] none none none).1.Disjoint
      (cluster_records [sampleRecord] none none none).2 :=
  (cluster_records_exact_partition [sampleRecord] none none none).2.2 (by simp)

/-- C3: the Identity Clusterer date-sorts its input (a permutation of the
input, sorted ascending by the safe date key, with missing or unparsable
dates getting the minimum representable date's key, which bounds every key
below), and its scan partitions the sorted sequence into non-empty clusters
whose consecutive members satisfy the continuity test against the
immediately preceding record, with continuity failing across every cluster
boundary (the preceding record is maintained across the boundary). -/
theorem clusterer_sort_and_scan (records : List ContributionRecord) :
    (sortRecords records).Perm records
    ∧ List.Sorted dateLe (sortRecords records)
    ∧ (∀ r : ContributionRecord, parseDate r.contribution_receipt_date = none →
        safe_date r = datetimeMinKey)
    ∧ (∀ r : ContributionRecord, datetimeMinKey ≤ safe_date r)
    ∧ (clustersOf records).flatten = sortRecords records
    ∧ (∀ c ∈ clustersOf records, c ≠ [])
    ∧ (∀ c ∈ clustersOf records, List.Chain' (fun x y => continuityB y x = true) c)
    ∧ List.Chain' (fun c1 c2 => ∀ x y, c1.getLast? = some x → c2.head? = some y →
        continuityB y x = false) (clustersOf records) := by
  refine ⟨List.perm_insertionSort _ _, List.sorted_insertionSort dateLe records,
    ?_, safe_date_min, clustersOf_flatten records, clustersOf_mem_ne_nil, ?_, ?_⟩
  · intro r hr
    unfold safe_date
    rw [hr]
  · intro c hc
    unfold clustersOf at hc
    split at hc
    · simp at hc
    · exact clusterScan_chain _ [_] _ rfl (List.chain'_singleton _) c hc
  · unfold clustersOf
    split
    · simp
    · exact clusterScan_boundary _ [_] _ rfl

theorem clusterer_sort_and_scan_witness : safe_date badDateRecord = datetimeMinKey :=
  (clusterer_sort_and_scan [badDateRecord]).2.2.1 badDateRecord rfl

/-- C5: cluster selection picks the cluster of maximum average confidence,
and on ties the earliest-starting cluster in the date-sorted scan order
wins: the resolved output is the cluster at an index whose average is a
maximum and which strictly beats every earlier cluster.  Selection is a
pure function of the input list, so repeated runs on the same input are
identical by construction. -/
theorem cluster_selection_first_max (records : List ContributionRecord)
    (tc te tocc : Option String) (hne : records ≠ []) :
    ∃ (i : Nat) (h : i < (clustersOf records).length),
      (cluster_records records tc te tocc).1 = (clustersOf records).get ⟨i, h⟩
      ∧ (∀ (j : Nat) (hj : j < (clustersOf records).length),
          clusterAvg tc te tocc ((clustersOf records).get ⟨j, hj⟩)
            ≤ clusterAvg tc te tocc ((clustersOf records).get ⟨i, h⟩))
      ∧ (∀ (j : Nat) (hj : j < (clustersOf records).length), j < i →
          clusterAvg tc te tocc ((clustersOf records).get ⟨j, hj⟩)
            < clusterAvg tc te tocc ((clustersOf records).get ⟨i, h⟩)) := by
  unfold cluster_records
  rw [if_neg hne]
  cases hs : List.insertionSort scoreGe
      ((clustersOf records).map fun c => (clusterAvg tc te tocc c, c)) with
  | nil =>
    exfalso
    have hlen := List.length_insertionSort scoreGe
      ((clustersOf records).map fun c => (clusterAvg tc te tocc c, c))
    rw [hs] at hlen
    simp at hlen
    exact clustersOf_ne_nil hne (List.eq_nil_of_length_eq_zero hlen.symm)
  | cons best rest =>
    dsimp only
    obtain ⟨i, hi, hbi, hmax, hstrict⟩ := insertionSort_head_firstMax _ best rest hs
    have hih : i < (clustersOf records).length := by simpa using hi
    have hget : ∀ (j : Nat) (hj1 : j < ((clustersOf records).map
          fun c => (clusterAvg tc te tocc c, c)).length)
        (hj : j < (clustersOf records).length),
        ((clustersOf records).map fun c => (clusterAvg tc te tocc c, c)).get ⟨j, hj1⟩
        = (clusterAvg tc te tocc ((clustersOf records).get ⟨j, hj⟩),
            (clustersOf records).get ⟨j, hj⟩) := by
      intro j hj1 hj
      simp [List.get_eq_getElem, List.getElem_map]
    refine ⟨i, hih, ?_, ?_, ?_⟩
    · rw [hbi, hget i hi hih]
    · intro j hj
      have h1 := hmax j (by simpa using hj)
      rw [hget j (by simpa using hj) hj, hbi, hget i hi hih] at h1
      exact h1
    · intro j hj hji
      have h1 := hstrict j (by simpa using hj) hji
      rw [hget j (by simpa using hj) hj, hbi, hget i hi hih] at h1
      exact h1

theorem cluster_selection_first_max_witness :
    (cluster_records [sampleRecord] none none none).1 = [sampleRecord] := by
  obtain ⟨i, hi, heq, _, _⟩ :=
    cluster_selection_first_max [sampleRecord] none none none (by simp)
  have hall : ∀ c ∈ clustersOf [sampleRecord], c = [sampleRecord] := by decide
  rw [heq]
  exact hall _ (List.get_mem _ _ _)

theorem round3_zero : round3 0 = 0 := by
  norm_num [round3, pyRoundInt]

theorem match_confidence_none (r : ContributionRecord) :
    match_confidence r none none none = 0 := by
  unfold match_confidence
  simp [truthyS]

theorem clusterAvg_none (c : List ContributionRecord) :
    clusterAvg none none none c = 0 := by
  unfold clusterAvg
  have hmap : (c.map fun r => round3 (match_confidence r none none none))
      = c.map fun _ => (0 : ℚ) := by
    apply List.map_congr_left
    intro r _
    rw [match_confidence_none, round3_zero]
  have hzero : ∀ l : List ContributionRecord, (l.map fun _ => (0 : ℚ)).sum = 0 := by
    intro l
    induction l with
    | nil => rfl
    | cons x xs ih => simp [ih]
  rw [hmap, hzero]
  simp

/-- C10: on non-empty input with no target attributes supplied, every
cluster's average confidence is 0 and all clusters tie, yet the Clusterer
still resolves the earliest-starting cluster in the date-sorted order, so
the resolved output is non-empty. -/
theorem resolved_nonempty_without_target (records : List ContributionRecord)
    (hne : records ≠ []) :
    ∃ c cs, clustersOf records = c :: cs
      ∧ (cluster_records records none none none).1 = c ∧ c ≠ [] := by
  obtain ⟨c0, cs0, hcl⟩ : ∃ c0 cs0, clustersOf records = c0 :: cs0 := by
    cases h : clustersOf records with
    | nil => exact absurd h (clustersOf_ne_nil hne)
    | cons a b => exact ⟨a, b, rfl⟩
  refine ⟨c0, cs0, hcl, ?_, clustersOf_mem_ne_nil c0 (hcl ▸ List.mem_cons_self c0 cs0)⟩
  unfold cluster_records
  rw [if_neg hne]
  have hconst : ∀ p ∈ (clustersOf records).map
      fun c => (clusterAvg none none none c, c), p.1 = (0 : ℚ) := by
    intro p hp
    obtain ⟨c, hc, hpc⟩ := List.mem_map.mp hp
    rw [← hpc]
    exact clusterAvg_none c
  rw [insertionSort_const_fst _ 0 hconst, hcl]
  rfl

theorem resolved_nonempty_without_target_witness :
    (cluster_records [badDateRecord] none none none).1 ≠ [] := by
  obtain ⟨c, cs, hcl, heq, hcne⟩ :=
    resolved_nonempty_without_target [badDateRecord] (by simp)
  rw [heq]
  exact hcne

/-- C8 counterexample: for the name Jeff Lyons the Expander emits exactly
the seven casing and order forms the claim lists, but they are not seven
distinct strings: the title-case form repeats the original and the
capitalized reversal repeats the verbatim reversal, so the emitted sequence
has duplicates. -/
theorem name_variants_not_seven_distinct :
    name_variants ("Jeff Lyons")
      = ["Jeff Lyons", "JEFF LYONS", "jeff lyons", "Jeff Lyons", "Lyons, Jeff",
        "LYONS, JEFF", "Lyons, Jeff"]
    ∧ ¬ (name_variants ("Jeff Lyons")).Nodup := by
  constructor
  · decide
  · decide

/-- C8 amended: for the name Jeff Lyons the Expander produces the original
with its upper, lower and title casings followed by the reversed
second-comma-first order in verbatim, upper and capitalized casings — a
sequence of seven query strings of which five are distinct, since the
title-case form equals the original and the capitalized reversal equals the
verbatim reversal for this input. -/
theorem name_variants_seven_forms_five_distinct :
    name_variants ("Jeff Lyons")
      = ["Jeff Lyons", "JEFF LYONS", "jeff lyons", "Jeff Lyons", "Lyons, Jeff",
        "LYONS, JEFF", "Lyons, Jeff"]
    ∧ (name_variants ("Jeff Lyons")).length = 7
    ∧ (name_variants ("Jeff Lyons")).dedup.length = 5 := by
  refine ⟨by decide, by decide, by decide⟩
